import Mathlib

/-!
# Verification of the `rudi` dependency-injection runtime against its specification

This file shallowly embeds the data model and the operations of the `rudi`
repository (a Rust dependency-injection runtime) and proves, or refutes, the
frozen claims about it.

The repository sources available are: `rudi/src/macros.rs` (the three
declarative macros), `rudi-macro/src/provider_attribute.rs` and
`rudi-macro/src/item_struct_gen.rs` (the attribute parsing and the code
generation), the tests `rudi/tests/standalone_variables.rs` and
`rudi/tests/generic.rs`, and three examples.  The core runtime (Key, Provider,
Context, the resolution algorithm, module flattening) is not among the source
files; those parts are modelled from the specification, as marked on each
definition, and checked against the behaviour the in-repository tests pin down.
-/

namespace Rudi

/-- Modelled from the spec: `Key` — "a type identity plus an optional
human-readable discriminator string"; the type identity is abstracted as a
`Nat` tag and the name as a `String` (empty string = the unnamed instance).
Two keys are equal iff both fields match. -/
structure Key where
  typeId : Nat
  name : String
deriving DecidableEq, Repr

/-- Modelled from the spec: `Scope` — enumeration `{Singleton, Transient,
SingleOwner}`. -/
inductive Scope where
  | Singleton
  | Transient
  | SingleOwner
deriving DecidableEq, Repr

/-- Atomic seeded values appearing in the standalone-instances test
(`42i32`, `true`, `"Hello world"`). -/
inductive VAtom where
  | vInt (n : Int)
  | vBool (b : Bool)
  | vStr (s : String)
deriving DecidableEq, Repr

/-- Modelled from the spec: an instance produced by resolution.  Either a
seeded atomic value, or a value built by a constructor (tagged by the
constructor's code) from the instances resolved for its dependencies. -/
inductive Value where
  | atom (a : VAtom)
  | built (code : Nat) (deps : List Value)

/-- Modelled from the spec: `Constructor<T>` — "a capability that, given a
resolver handle, returns either `T` directly or a pending computation yielding
`T`".  The recursion back into the Context is made explicit: a constructor is
either an already-made value (the pre-seeded standalone instance case, spec
section 6: "typed values inserted directly") or a code together with the keys of the
dependencies it resolves through the handle. -/
inductive Ctor where
  | value (v : Value)
  | build (code : Nat) (deps : List Key)

/-- Modelled from the spec: the type-erased `DynProvider` — `{key, scope,
eager_create, constructor, binds}` plus the erased type tag used by the checked
downcast of `get_provider` and the constructor colour (synchronous or
asynchronous). Binds are kept as the list of additional target keys. -/
structure DynProvider where
  key : Key
  storedType : Nat
  scope : Scope
  eagerCreate : Bool
  isAsync : Bool
  ctor : Ctor
  binds : List Key

/-- Modelled from the spec: the `Context` — "owns one Registry (Key →
Provider) and one instance cache (Key → realized Singleton instance)",
a consumed-flag set for SingleOwner keys, and "a resolution stack (ordered
sequence of Keys currently being constructed)". The registry list is kept in
registration order. -/
structure Context where
  registry : List DynProvider
  singletons : List (Key × Value)
  consumed : List Key
  stack : List Key

/-- Modelled from the spec: the error taxonomy of section 7. `noFuel` is an
artifact of the terminating embedding (the code's recursion is unbounded). -/
inductive RErr where
  | notFound (k : Key)
  | cycle (stack : List Key)
  | alreadyConsumed (k : Key)
  | wrongColor (k : Key)
  | noFuel

/-- Modelled from the spec: `lookup(key)` — "the sole read path" of the
registry.  Registration appends, and "last registration wins", so lookup
scans from the most recent entry. -/
def lookupProvider (reg : List DynProvider) (k : Key) : Option DynProvider :=
  reg.reverse.find? (fun p => decide (p.key = k))

/-- Lookup in the singleton instance cache. -/
def cacheLookup (cache : List (Key × Value)) (k : Key) : Option Value :=
  (cache.find? (fun e => decide (e.1 = k))).map (·.2)

/-- Number of currently cached singleton instances (`singletons_len`). -/
def Context.singletonsLen (cx : Context) : Nat :=
  cx.singletons.length

mutual

/-- Modelled from the spec: `resolve(key)` (section 4.2), parameterised by the
resolution path colour (`sync = true` is the synchronous path, which fails
fast with WrongColor on an asynchronous Provider).  Steps: cycle check against
the resolution stack, push, provider lookup, scope policy with recursive
construction of dependencies, pop on every exit path.  `fuel` bounds the
recursion depth of the embedding. -/
def resolve (sync : Bool) : Nat → Context → Key → Except RErr Value × Context
  | 0, cx, k =>
    if k ∈ cx.stack then
      (.error (.cycle (cx.stack ++ [k])), cx)
    else
      (.error .noFuel, cx)
  | fuel + 1, cx, k =>
    if k ∈ cx.stack then
      (.error (.cycle (cx.stack ++ [k])), cx)
    else
      let cx1 : Context := { cx with stack := cx.stack ++ [k] }
      let res : Except RErr Value × Context :=
        match lookupProvider cx1.registry k with
        | none => (.error (.notFound k), cx1)
        | some p =>
          if sync && p.isAsync then
            (.error (.wrongColor k), cx1)
          else
            match p.scope with
            | .Singleton =>
              match cacheLookup cx1.singletons k with
              | some v => (.ok v, cx1)
              | none =>
                match construct sync fuel cx1 p.ctor with
                | (.error e, cx') => (.error e, cx')
                | (.ok v, cx') =>
                  (.ok v, { cx' with singletons := cx'.singletons ++ [(k, v)] })
            | .Transient => construct sync fuel cx1 p.ctor
            | .SingleOwner =>
              if k ∈ cx1.consumed then
                (.error (.alreadyConsumed k), cx1)
              else
                match construct sync fuel cx1 p.ctor with
                | (.error e, cx') => (.error e, cx')
                | (.ok v, cx') =>
                  (.ok v, { cx' with consumed := k :: cx'.consumed })
      (res.1, { res.2 with stack := res.2.stack.dropLast })

/-- Modelled from the spec: step 4 of `resolve` — "Construction invokes the
Provider's constructor capability, which may itself call `resolve` on the same
Context for its own dependencies". -/
def construct (sync : Bool) : Nat → Context → Ctor → Except RErr Value × Context
  | _, cx, .value v => (.ok v, cx)
  | 0, cx, .build _ _ => (.error .noFuel, cx)
  | fuel + 1, cx, .build code deps =>
    match resolveList sync fuel cx deps with
    | (.error e, cx') => (.error e, cx')
    | (.ok vs, cx') => (.ok (.built code vs), cx')

/-- Resolve a list of dependency keys left to right, threading the context and
propagating the first failure. -/
def resolveList (sync : Bool) : Nat → Context → List Key →
    Except RErr (List Value) × Context
  | _, cx, [] => (.ok [], cx)
  | 0, cx, _ :: _ => (.error .noFuel, cx)
  | fuel + 1, cx, k :: rest =>
    match resolve sync fuel cx k with
    | (.error e, cx') => (.error e, cx')
    | (.ok v, cx') =>
      match resolveList sync fuel cx' rest with
      | (.error e, cx'') => (.error e, cx'')
      | (.ok vs, cx'') => (.ok (v :: vs), cx'')

end

/-! ## Module composition and flattening (spec section 4.3) -/

/-- Modelled from the spec: `Module` — "a named, possibly-recursive bundle: a
list of Providers plus a list of nested Modules"; the name (the module's
distinct identity, a Rust type) is abstracted as a `Nat`. -/
inductive Module where
  | mk (mid : Nat) (provs : List DynProvider) (subs : List Module)

/-- The identity of a module. -/
def Module.mid : Module → Nat
  | .mk i _ _ => i

/-- The providers declared directly by a module. -/
def Module.provs : Module → List DynProvider
  | .mk _ ps _ => ps

/-- Modelled from the spec: `flatten(modules)` — "walks each Module's tree
depth-first, recording each distinct module's identity the first time it is
seen; subsequent encounters of the same identity are skipped entirely
(including their nested providers)".  `seen` is the set of identities already
recorded; the result pairs each surviving module's identity with its provider
list, in first-encounter depth-first order, together with the final seen
list. -/
def flattenGo : List Module → List Nat → List (Nat × List DynProvider) × List Nat
  | [], seen => ([], seen)
  | .mk i ps subs :: rest, seen =>
    if i ∈ seen then
      flattenGo rest seen
    else
      let r1 := flattenGo subs (i :: seen)
      let r2 := flattenGo rest r1.2
      ((i, ps) :: (r1.1 ++ r2.1), r2.2)

/-- Flattening a list of modules starting from no seen identities. -/
def flatten (ms : List Module) : List (Nat × List DynProvider) :=
  (flattenGo ms []).1

/-- All module identities occurring in a module forest, in depth-first order,
with repetitions. -/
def moduleIds : List Module → List Nat
  | [] => []
  | .mk i _ subs :: rest => i :: (moduleIds subs ++ moduleIds rest)

/-- The concatenated provider lists of the surviving modules, in
first-encounter order — what gets handed to the Registry's `register`. -/
def flattenProviders (ms : List Module) : List DynProvider :=
  ((flatten ms).map (·.2)).flatten

/-- `SubTree m r`: the module `m` occurs in the tree rooted at `r` (as the
root itself or nested below it). -/
inductive SubTree : Module → Module → Prop where
  | refl (m : Module) : SubTree m m
  | step {m c : Module} {i : Nat} {ps : List DynProvider} {subs : List Module} :
      c ∈ subs → SubTree m c → SubTree m (.mk i ps subs)

/-- `InForest m ms`: the module `m` occurs in one of the trees of the forest
`ms` — it is transitively included by one of the listed modules. -/
def InForest (m : Module) (ms : List Module) : Prop :=
  ∃ r ∈ ms, SubTree m r

/-- A forest is coherent when a module identity determines the module: two
occurrences with the same identity are the same module (true of the Rust
source, where a module identity is a type and `providers()`/`submodules()`
are functions of that type). -/
def Coherent (ms : List Module) : Prop :=
  ∀ m1 m2, InForest m1 ms → InForest m2 ms → m1.mid = m2.mid → m1 = m2

/-- Invariant of the flattening walk: every identity in `s` is either an
ancestor still being processed (in `anc`) or fully recorded — the whole tree
of any module in the universe `U` carrying that identity is in `s`. -/
def SeenClosed (U : List Module) (anc : List Nat) (s : List Nat) : Prop :=
  ∀ j ∈ s, j ∈ anc ∨
    ∀ m, InForest m U → m.mid = j → ∀ x ∈ moduleIds [m], x ∈ s

/-! ## Context construction (spec sections 4.4 and 6) -/

/-- Modelled from the spec: a pre-seeded standalone instance
(`Context::options().instance(v)`): a typed value; its key is the unnamed key
of its type. -/
structure Seed where
  typeId : Nat
  val : Value

/-- Modelled from the spec: the provider a Context derives from a pre-seeded
standalone instance — "typed values inserted directly as if they were
already-resolved Singletons, bypassing Provider construction". -/
def seedProvider (s : Seed) : DynProvider :=
  { key := ⟨s.typeId, ""⟩
    storedType := s.typeId
    scope := .Singleton
    eagerCreate := false
    isAsync := false
    ctor := .value s.val
    binds := [] }

/-- Modelled from the spec: the registry contents after seeding and module
flattening — "these seeded instances are registered before module flattening
and are overridable by a module-declared Provider under the same Key". -/
def createRegistry (seeds : List Seed) (ms : List Module) : List DynProvider :=
  seeds.map seedProvider ++ flattenProviders ms

/-- Modelled from the spec: the eager-creation sweep at `Building → Ready` —
eager providers are constructed "in provider-registration order"; a failure
aborts construction of the Context. -/
def eagerSweep (fuel : Nat) (cx : Context) : List DynProvider → Except RErr Context
  | [] => .ok cx
  | p :: rest =>
    if p.eagerCreate then
      match resolve false fuel cx p.key with
      | (.error e, _) => .error e
      | (.ok _, cx') => eagerSweep fuel cx' rest
    else
      eagerSweep fuel cx rest

/-- Modelled from the spec: `Context::create(modules)` with the options
surface for pre-seeded instances: build the registry, then run the
eager-creation sweep. -/
def Context.create (fuel : Nat) (seeds : List Seed) (ms : List Module) :
    Except RErr Context :=
  let reg := createRegistry seeds ms
  eagerSweep fuel ⟨reg, [], [], []⟩ reg

/-- Modelled from the spec: `get_provider<T>(name)` — "performs a checked
downcast from the type-erased entry; returns none if the Key is absent or the
stored type does not match the requested type". -/
def Context.getProvider (cx : Context) (t : Nat) (n : String) : Option DynProvider :=
  match lookupProvider cx.registry ⟨t, n⟩ with
  | none => none
  | some p => if p.storedType = t then some p else none

/-! ## The typed provider and the declarative macros (`rudi/src/macros.rs`) -/

/-- A typed `Provider<T>`: its produced type's identity, its definition
fields.  `DynProvider::from` erases it for storage; the erased type tag is the
produced type's identity, which is also the key's type component. -/
structure Provider where
  tyId : Nat
  name : String
  scope : Scope
  eagerCreate : Bool
  isAsync : Bool
  ctor : Ctor
  binds : List Key

/-- `DynProvider::from(provider)`: type erasure for registry storage. -/
def DynProvider.from (p : Provider) : DynProvider :=
  { key := ⟨p.tyId, p.name⟩
    storedType := p.tyId
    scope := p.scope
    eagerCreate := p.eagerCreate
    isAsync := p.isAsync
    ctor := p.ctor
    binds := p.binds }

/-- `ResolveModule::new::<M>()`: captures the module type's tree. -/
structure ResolveModule where
  ofModule : Module

/-- `ResolveModule::new::<M>()` as a function of the module's tree. -/
def ResolveModule.new (m : Module) : ResolveModule :=
  ⟨m⟩

/-- A type implementing `DefaultProvider`: what `C::provider()` returns. -/
structure Component where
  defaultProvider : Provider

/-- The `modules!` declarative macro (`macros.rs` lines 24-34): the empty
invocation expands to `vec![]`, and `modules![M1, ..., Mn]` expands to
`vec![ResolveModule::new::<M1>(), ..., ResolveModule::new::<Mn>()]`. -/
def modulesExpand (args : List Module) : List ResolveModule :=
  match args with
  | [] => []
  | _ :: _ => args.map ResolveModule.new

/-- The `providers!` declarative macro (`macros.rs` lines 50-60): each
argument expression is passed through `DynProvider::from`. -/
def providersExpand (args : List Provider) : List DynProvider :=
  match args with
  | [] => []
  | _ :: _ => args.map DynProvider.from

/-- The `components!` declarative macro (`macros.rs` lines 80-92): each
argument type `C` is mapped to `DynProvider::from(<C as
DefaultProvider>::provider())`. -/
def componentsExpand (args : List Component) : List DynProvider :=
  match args with
  | [] => []
  | _ :: _ => args.map (fun c => DynProvider.from c.defaultProvider)

end Rudi

namespace Codegen

/-! ## The attribute-macro crate (`rudi-macro/src`)

`provider_attribute.rs` parses the list of attribute arguments of a
`#[Singleton(...)]`/`#[Transient(...)]`/`#[SingleOwner(...)]` annotation, and
`item_struct_gen.rs` expands an annotated struct into a `DefaultProvider`
implementation.  The `syn` surface is embedded as far as the source consults
it: an attribute argument is a `Meta` (a bare path, a `name = value` pair, or
a parenthesised list), whose path is compared against the five recognised
identifiers, and whose value is an expression. -/

/-- The identifier of an attribute argument's path, as the source compares it
(`meta_path.is_ident("name")` etc.); any other identifier is kept as a
string. -/
inductive AttrIdent where
  | nameA
  | eagerCreateA
  | bindsA
  | asyncConstructorA
  | notAutoRegisterA
  | otherA (s : String)
deriving DecidableEq, Repr

/-- The expression forms the parser distinguishes on the value side of a
`name = value` meta: a literal string, an expression call (both accepted by
`Name::try_from`), an expression path (accepted inside a `binds` array), an
array, or anything else. -/
inductive AExpr where
  | litStr (s : String)
  | call (c : Nat)
  | pathE (p : String)
  | arrayE (elems : List AExpr)
  | otherE

/-- A `syn::Meta`: a bare path (`eager_create`), a name-value pair
(`name = "x"`, `binds = [..]`), or a list (`name(..)`). -/
inductive AMeta where
  | pathM (i : AttrIdent)
  | nameValue (i : AttrIdent) (v : AExpr)
  | listM (i : AttrIdent)

/-- `meta.path()`: the identifier of any meta form. -/
def AMeta.ident : AMeta → AttrIdent
  | .pathM i => i
  | .nameValue i _ => i
  | .listM i => i

/-- Modelled from the spec: `crate::name::Name` (its source file is not in the
repository snapshot) — per the parser's own error message, "the value of
`name` must be a literal string or an expression call". -/
inductive NameVal where
  | lit (s : String)
  | call (c : Nat)
deriving DecidableEq, Repr

/-- `Name::try_from(value)`: accepts a literal string or an expression call
(`provider_attribute.rs` lines 54-57). -/
def nameTryFrom (v : AExpr) : Except String NameVal :=
  match v with
  | .litStr s => .ok (.lit s)
  | .call c => .ok (.call c)
  | _ => .error "the value of `name` must be a literal string or an expression call"

/-- `require_path_only(meta)` (`provider_attribute.rs` lines 175-182):
succeeds exactly on a bare path meta. -/
def requirePathOnly (m : AMeta) : Except String AttrIdent :=
  match m with
  | .pathM i => .ok i
  | _ => .error "expected a bare path"

/-- `require_name_value(meta)` (`provider_attribute.rs` lines 184-191):
succeeds exactly on a name-value meta, yielding its value. -/
def requireNameValue (m : AMeta) : Except String AExpr :=
  match m with
  | .nameValue _ v => .ok v
  | _ => .error "expected `name = value`"

/-- Collect the elements of a `binds` array, requiring every element to be an
expression path (`provider_attribute.rs` lines 84-95). -/
def bindPaths : List AExpr → Except String (List String)
  | [] => .ok []
  | .pathE p :: rest =>
    match bindPaths rest with
    | .ok ps => .ok (p :: ps)
    | .error e => .error e
  | _ :: _ => .error "the element in `binds` must be an expression path"

/-- `ProviderAttribute` (`provider_attribute.rs` lines 12-18): the five
optional attribute slots.  The `Path` half of each stored pair carries no
information the generator consults, so only presence is kept. -/
structure ProviderAttribute where
  name : Option NameVal
  eagerCreate : Option Unit
  binds : Option (List String)
  asyncConstructor : Option Unit
  notAutoRegister : Option Unit
deriving DecidableEq, Repr

/-- The empty attribute state the parse loop starts from. -/
def ProviderAttribute.empty : ProviderAttribute :=
  ⟨none, none, none, none, none⟩

/-- One iteration of the parse loop of `impl Parse for ProviderAttribute`
(`provider_attribute.rs` lines 30-120): dispatch on the meta's identifier; a
recognised identifier first checks its slot is unset (`check_duplicate!`),
then checks the required shape; an unrecognised identifier is an error. -/
def parseStep (acc : ProviderAttribute) (m : AMeta) : Except String ProviderAttribute :=
  match m.ident with
  | .nameA =>
    if acc.name.isSome then
      .error "the `name` attribute can only be set once"
    else
      match requireNameValue m with
      | .error e => .error e
      | .ok v =>
        match nameTryFrom v with
        | .error e => .error e
        | .ok nv => .ok { acc with name := some nv }
  | .eagerCreateA =>
    if acc.eagerCreate.isSome then
      .error "the `eager_create` attribute can only be set once"
    else
      match requirePathOnly m with
      | .error e => .error e
      | .ok _ => .ok { acc with eagerCreate := some () }
  | .bindsA =>
    if acc.binds.isSome then
      .error "the `binds` attribute can only be set once"
    else
      match requireNameValue m with
      | .error e => .error e
      | .ok v =>
        match v with
        | .arrayE elems =>
          match bindPaths elems with
          | .error e => .error e
          | .ok ps => .ok { acc with binds := some ps }
        | _ => .error "the value of `binds` must be an array"
  | .asyncConstructorA =>
    if acc.asyncConstructor.isSome then
      .error "the `async_constructor` attribute can only be set once"
    else
      match requirePathOnly m with
      | .error e => .error e
      | .ok _ => .ok { acc with asyncConstructor := some () }
  | .notAutoRegisterA =>
    if acc.notAutoRegister.isSome then
      .error "the `not_auto_register` attribute can only be set once"
    else
      match requirePathOnly m with
      | .error e => .error e
      | .ok _ => .ok { acc with notAutoRegister := some () }
  | .otherA _ =>
    .error "the attribute must be one of the five recognised identifiers"

/-- The parse loop: fold `parseStep` over the metas, propagating the first
error. -/
def parseGo (acc : ProviderAttribute) : List AMeta → Except String ProviderAttribute
  | [] => .ok acc
  | m :: rest =>
    match parseStep acc m with
    | .error e => .error e
    | .ok acc' => parseGo acc' rest

/-- Parsing a whole attribute list, from the empty state. -/
def parseAttr (ms : List AMeta) : Except String ProviderAttribute :=
  parseGo ProviderAttribute.empty ms

/-- Whether an expression is an expression path. -/
def isPathExpr : AExpr → Bool
  | .pathE _ => true
  | _ => false

/-- The shape the parser requires of a single attribute argument:
`name = <literal string or call>`, bare `eager_create`,
`binds = [<expression paths>]`, bare `async_constructor`, bare
`not_auto_register`; anything else (including any unrecognised identifier)
is malformed. -/
def metaShapeOk : AMeta → Bool
  | .nameValue .nameA v =>
    match nameTryFrom v with
    | .ok _ => true
    | .error _ => false
  | .nameValue .bindsA (.arrayE elems) => elems.all isPathExpr
  | .pathM .eagerCreateA => true
  | .pathM .asyncConstructorA => true
  | .pathM .notAutoRegisterA => true
  | _ => false

/-- How many attribute arguments carry a given identifier. -/
def identCount (ms : List AMeta) (i : AttrIdent) : Nat :=
  ms.countP fun m => decide (m.ident = i)

/-- 1 if the slot for the given recognised identifier is already set in the
accumulated attribute state, else 0. -/
def slotCount (acc : ProviderAttribute) : AttrIdent → Nat
  | .nameA => if acc.name.isSome then 1 else 0
  | .eagerCreateA => if acc.eagerCreate.isSome then 1 else 0
  | .bindsA => if acc.binds.isSome then 1 else 0
  | .asyncConstructorA => if acc.asyncConstructor.isSome then 1 else 0
  | .notAutoRegisterA => if acc.notAutoRegister.isSome then 1 else 0
  | .otherA _ => 0

/-- `SimpleAttribute` (`provider_attribute.rs` lines 167-173): the shape the
generator consumes.  The `name` token stream is a `NameVal` (the default is
the literal empty string), and the `binds` token stream is the ordered list of
`.bind(path)` calls. -/
structure SimpleAttribute where
  name : NameVal
  eagerCreate : Bool
  binds : List String
  asyncConstructor : Bool
  notAutoRegister : Bool
deriving DecidableEq, Repr

/-- `ProviderAttribute::simplify` (`provider_attribute.rs` lines 132-165):
`name` defaults to the literal `""` when absent; `binds` becomes one
`.bind(#path)` call per listed path, in order, and nothing when absent;
the three flag slots become their presence. -/
def ProviderAttribute.simplify (a : ProviderAttribute) : SimpleAttribute :=
  { name :=
      match a.name with
      | some nv => nv
      | none => .lit ""
    eagerCreate := a.eagerCreate.isSome
    binds :=
      match a.binds with
      | some ps => ps
      | none => []
    asyncConstructor := a.asyncConstructor.isSome
    notAutoRegister := a.notAutoRegister.isSome }

/-- The constructor colour chosen by `generate` (`item_struct_gen.rs` lines
31-35). -/
inductive Color where
  | Sync
  | Async
deriving DecidableEq, Repr

/-- The provider value produced by the generated
`<Struct as DefaultProvider>::provider()` body: scope (from which of the three
attribute macros was used), colour, and the builder-chain state
`.name(#name).eager_create(#eager_create)` followed by the binds chain. -/
structure GenProvider where
  scope : Rudi.Scope
  color : Color
  name : NameVal
  eagerCreate : Bool
  binds : List String
deriving DecidableEq, Repr

/-- One `.bind(path)` builder call: appends a bind transform. -/
def bindCall (q : GenProvider) (p : String) : GenProvider :=
  { q with binds := q.binds ++ [p] }

/-- `generate` (`item_struct_gen.rs` lines 10-117), restricted to the provider
definition it emits: simplify the attribute, choose the colour, and build
`create_provider(constructor).name(#name).eager_create(#eager_create)`
followed by one `.bind(#path)` call per element of the binds token stream, in
order. -/
def generate (a : ProviderAttribute) (scope : Rudi.Scope) : GenProvider :=
  let s := a.simplify
  let color := if s.asyncConstructor then Color.Async else Color.Sync
  let base : GenProvider :=
    { scope := scope
      color := color
      name := s.name
      eagerCreate := s.eagerCreate
      binds := [] }
  s.binds.foldl bindCall base

/-- The attribute list `name = "hello"` of the hello-world example. -/
def attrNamed : ProviderAttribute := ⟨some (.lit "hello"), none, none, none, none⟩

/-- The attribute list `binds = [Self::into_service]` of the hello-world
example. -/
def attrBinds : ProviderAttribute := ⟨none, none, some ["Self::into_service"], none, none⟩

end Codegen

namespace Rudi

/-! ## Concrete scenarios from the spec and the in-repository tests -/

/-- Key of the self-cycling provider in the cycle scenario. -/
def keyA : Key := ⟨10, ""⟩

/-- Key of the unrelated provider in the cycle scenario. -/
def keyB : Key := ⟨11, ""⟩

/-- A provider whose constructor transitively (here: directly) depends on its
own key (spec section 8's cycle scenario). -/
def provSelf : DynProvider :=
  ⟨keyA, 10, .Transient, false, false, .build 0 [keyA], []⟩

/-- An unrelated provider, used to observe that the Context stays usable
after a cycle failure. -/
def provOther : DynProvider :=
  ⟨keyB, 11, .Transient, false, false, .value (.atom (.vInt 7)), []⟩

/-- A context holding the self-cycling provider and the unrelated one. -/
def cycleCtx : Context :=
  ⟨[provSelf, provOther], [], [], []⟩

/-- The seeded instance `42i32` of the standalone-variables scenario. -/
def intSeed : Seed := ⟨1, .atom (.vInt 42)⟩

/-- The seeded instance `true` of the standalone-variables scenario. -/
def boolSeed : Seed := ⟨2, .atom (.vBool true)⟩

/-- The seeded instance `"Hello world"` of the standalone-variables test. -/
def strSeed : Seed := ⟨3, .atom (.vStr "Hello world")⟩

/-- The spec's two-instance scenario (section 8): instances `42` and `true`. -/
def seedsSpec : List Seed := [intSeed, boolSeed]

/-- The three instances of `rudi/tests/standalone_variables.rs`. -/
def seedsTest : List Seed := [intSeed, boolSeed, strSeed]

/-- The context produced by
`Context::options().instance(42).instance(true).create(modules![])`. -/
def ctxSpec : Context := ⟨seedsSpec.map seedProvider, [], [], []⟩

/-- `ctxSpec` after `resolve::<i32>()`. -/
def ctxSpecAfterInt : Context := (resolve true 9 ctxSpec ⟨1, ""⟩).2

/-- `ctxSpec` after `resolve::<i32>()` and `resolve::<bool>()`. -/
def ctxSpecAfterBool : Context := (resolve true 9 ctxSpecAfterInt ⟨2, ""⟩).2

/-- The context of the three-instance test `standalone_variables`. -/
def ctxTest : Context := ⟨seedsTest.map seedProvider, [], [], []⟩

/-- `ctxTest` after `resolve::<i32>()`. -/
def ctxTest1 : Context := (resolve true 9 ctxTest ⟨1, ""⟩).2

/-- `ctxTest` after additionally `resolve::<bool>()`. -/
def ctxTest2 : Context := (resolve true 9 ctxTest1 ⟨2, ""⟩).2

/-- `ctxTest` after additionally `resolve::<&str>()`. -/
def ctxTest3 : Context := (resolve true 9 ctxTest2 ⟨3, ""⟩).2

/-- The typed provider for `A<i32>` in `rudi/tests/generic.rs` (synchronous
constructor, Transient, unnamed). -/
def provGenA : Provider := ⟨20, "", .Transient, false, false, .build 5 [], []⟩

/-- The typed provider for `B<i32>` in `rudi/tests/generic.rs` (asynchronous
constructor, Transient, unnamed). -/
def provGenB : Provider := ⟨21, "", .Transient, false, true, .build 6 [], []⟩

/-- `MyModule` of `rudi/tests/generic.rs`: its providers are the erased
generic providers. -/
def genericMod : Module :=
  .mk 100 [DynProvider.from provGenA, DynProvider.from provGenB] []

/-- The context `Context::create(modules![MyModule])` of the generic tests. -/
def genericCtx : Context := ⟨createRegistry [] [genericMod], [], [], []⟩

/-- The provider of the shared sub-module in the diamond scenario. -/
def dProvS : DynProvider :=
  ⟨⟨30, ""⟩, 30, .Transient, false, false, .value (.atom (.vInt 1)), []⟩

/-- The provider of the first top-level diamond module. -/
def dProv1 : DynProvider :=
  ⟨⟨31, ""⟩, 31, .Transient, false, false, .value (.atom (.vInt 2)), []⟩

/-- The provider of the second top-level diamond module. -/
def dProv2 : DynProvider :=
  ⟨⟨32, ""⟩, 32, .Transient, false, false, .value (.atom (.vInt 3)), []⟩

/-- The shared sub-module of the diamond scenario. -/
def diamondS : Module := .mk 3 [dProvS] []

/-- First top-level module of the diamond: includes the shared sub-module. -/
def diamondM1 : Module := .mk 1 [dProv1] [diamondS]

/-- Second top-level module of the diamond: also includes the shared
sub-module. -/
def diamondM2 : Module := .mk 2 [dProv2] [diamondS]

/-! ## Helper lemmas -/

/-- The resolution stack is restored on every exit path of `resolve` and
`resolveList` (spec section 4.2 step 5: "Pop `key` from the resolution stack
(on every exit path, including failure)"). -/
theorem stack_restored (sync : Bool) :
    ∀ fuel : Nat,
      (∀ (cx : Context) (k : Key), ((resolve sync fuel cx k).2).stack = cx.stack) ∧
      (∀ (cx : Context) (c : Ctor), ((construct sync fuel cx c).2).stack = cx.stack) ∧
      (∀ (cx : Context) (ks : List Key),
        ((resolveList sync fuel cx ks).2).stack = cx.stack) := by
  intro fuel
  induction fuel with
  | zero =>
    refine ⟨fun cx k => ?_, fun cx c => ?_, fun cx ks => ?_⟩
    · simp only [resolve]
      split <;> rfl
    · cases c <;> simp [construct]
    · cases ks <;> simp [resolveList]
  | succ n ih =>
    obtain ⟨ihR, ihC, ihL⟩ := ih
    refine ⟨fun cx k => ?_, fun cx c => ?_, fun cx ks => ?_⟩
    · simp only [resolve]
      split
      · rfl
      · repeat' split
        all_goals
          first
            | (simp [List.dropLast_concat]; done)
            | (rw [ihC]; simp [List.dropLast_concat])
            | (rename_i heq
               have h := congrArg (fun r : Except RErr Value × Context => r.2.stack) heq
               simp at h
               rw [ihC] at h
               simp at h
               simp [← h, List.dropLast_concat])
    · cases c with
      | value v => simp [construct]
      | build code deps =>
        simp only [construct]
        split
        · rename_i e cx' heq
          have h := ihL cx deps
          rw [heq] at h
          simpa using h
        · rename_i vs cx' heq
          have h := ihL cx deps
          rw [heq] at h
          simpa using h
    · cases ks with
      | nil => simp [resolveList]
      | cons k rest =>
        simp only [resolveList]
        split
        · rename_i e cx' heq
          have h := ihR cx k
          rw [heq] at h
          simpa using h
        · rename_i v cx' heq
          have h := ihR cx k
          rw [heq] at h
          simp at h
          split
          · rename_i e cx'' heq2
            have h2 := ihL cx' rest
            rw [heq2] at h2
            simp at h2
            simp [h2, h]
          · rename_i vs cx'' heq2
            have h2 := ihL cx' rest
            rw [heq2] at h2
            simp at h2
            simp [h2, h]

/-- Flattening an empty module list is empty. -/
theorem flattenGo_nil (seen : List Nat) : flattenGo [] seen = ([], seen) := by
  simp [flattenGo]

/-- No providers come from an empty module list. -/
theorem flattenProviders_nil : flattenProviders [] = [] := by
  simp [flattenProviders, flatten, flattenGo_nil]

/-- The eager sweep is the identity when no provider is eager. -/
theorem eagerSweep_no_eager (fuel : Nat) (cx : Context) :
    ∀ ps : List DynProvider, (∀ p ∈ ps, p.eagerCreate = false) →
      eagerSweep fuel cx ps = .ok cx := by
  intro ps
  induction ps with
  | nil => intro _; rfl
  | cons p rest ih =>
    intro h
    have hp := h p (List.mem_cons_self p rest)
    simp [eagerSweep, hp]
    exact ih fun q hq => h q (List.mem_cons_of_mem p hq)

/-- Creating a context from seeds and no modules yields the seed providers as
registry, nothing cached, nothing consumed, empty stack. -/
theorem create_noModules (fuel : Nat) (seeds : List Seed) :
    Context.create fuel seeds [] = .ok ⟨seeds.map seedProvider, [], [], []⟩ := by
  have hreg : createRegistry seeds [] = seeds.map seedProvider := by
    simp [createRegistry, flattenProviders_nil]
  unfold Context.create
  rw [hreg]
  apply eagerSweep_no_eager
  intro p hp
  obtain ⟨s, _, rfl⟩ := List.mem_map.mp hp
  rfl

/-- Unfolding `flattenGo` on an already-seen module: skipped entirely. -/
theorem flattenGo_cons_skip (i : Nat) (ps : List DynProvider) (subs rest : List Module)
    (seen : List Nat) (h : i ∈ seen) :
    flattenGo (.mk i ps subs :: rest) seen = flattenGo rest seen := by
  simp [flattenGo, h]

/-- Unfolding `flattenGo` on a first-encountered module: record it, walk its
sub-modules depth-first, then the remaining worklist. -/
theorem flattenGo_cons_new (i : Nat) (ps : List DynProvider) (subs rest : List Module)
    (seen : List Nat) (h : i ∉ seen) :
    flattenGo (.mk i ps subs :: rest) seen =
      ((i, ps) :: ((flattenGo subs (i :: seen)).1
          ++ (flattenGo rest (flattenGo subs (i :: seen)).2).1),
        (flattenGo rest (flattenGo subs (i :: seen)).2).2) := by
  simp [flattenGo, h]

/-- Unfolding `moduleIds` on a cons cell. -/
theorem moduleIds_cons (i : Nat) (ps : List DynProvider) (subs rest : List Module) :
    moduleIds (.mk i ps subs :: rest) = i :: (moduleIds subs ++ moduleIds rest) := by
  simp [moduleIds]

/-- `moduleIds` of a single tree. -/
theorem moduleIds_single (i : Nat) (ps : List DynProvider) (subs : List Module) :
    moduleIds [Module.mk i ps subs] = i :: moduleIds subs := by
  simp [moduleIds]

/-- The final seen list of `flattenGo` holds exactly the initial seen ids plus
the ids of the emitted modules. -/
theorem flattenGo_seen (ms : List Module) (seen : List Nat) :
    ∀ j, j ∈ (flattenGo ms seen).2 ↔
      (j ∈ seen ∨ j ∈ ((flattenGo ms seen).1.map Prod.fst)) := by
  induction ms, seen using flattenGo.induct with
  | case1 seen =>
    intro j
    simp [flattenGo_nil]
  | case2 i ps subs rest seen hmem ih =>
    intro j
    rw [flattenGo_cons_skip i ps subs rest seen hmem]
    exact ih j
  | case3 i ps subs rest seen hmem r1 ih1 ih2 =>
    intro j
    have hr1 : r1 = flattenGo subs (i :: seen) := rfl
    rw [hr1] at ih2
    rw [flattenGo_cons_new i ps subs rest seen hmem]
    simp only [List.map_cons, List.map_append, List.mem_cons, List.mem_append]
    rw [ih2 j, ih1 j]
    simp only [List.mem_cons]
    tauto

/-- The emitted ids of `flattenGo` are distinct, and none of them was seen
before the walk. -/
theorem flattenGo_nodup (ms : List Module) (seen : List Nat) :
    ((flattenGo ms seen).1.map Prod.fst).Nodup ∧
    (∀ j ∈ (flattenGo ms seen).1.map Prod.fst, j ∉ seen) := by
  induction ms, seen using flattenGo.induct with
  | case1 seen =>
    simp [flattenGo_nil]
  | case2 i ps subs rest seen hmem ih =>
    rw [flattenGo_cons_skip i ps subs rest seen hmem]
    exact ih
  | case3 i ps subs rest seen hmem r1 ih1 ih2 =>
    have hr1 : r1 = flattenGo subs (i :: seen) := rfl
    rw [hr1] at ih2
    obtain ⟨hn1, hd1⟩ := ih1
    obtain ⟨hn2, hd2⟩ := ih2
    rw [flattenGo_cons_new i ps subs rest seen hmem]
    simp only [List.map_cons, List.map_append]
    constructor
    · rw [List.nodup_cons]
      constructor
      · simp only [List.mem_append]
        rintro (h | h)
        · exact (hd1 i h) (List.mem_cons_self i seen)
        · exact (hd2 i h)
            ((flattenGo_seen subs (i :: seen) i).mpr (Or.inl (List.mem_cons_self i seen)))
      · rw [List.nodup_append]
        refine ⟨hn1, hn2, ?_⟩
        intro j hj1 hj2
        exact (hd2 j hj2)
          ((flattenGo_seen subs (i :: seen) j).mpr (Or.inr hj1))
    · intro j hj
      rcases List.mem_cons.mp hj with rfl | hj2
      · exact hmem
      rcases List.mem_append.mp hj2 with hjs | hjr
      · intro hjseen
        exact (hd1 j hjs) (List.mem_cons_of_mem i hjseen)
      · intro hjseen
        exact (hd2 j hjr)
          ((flattenGo_seen subs (i :: seen) j).mpr
            (Or.inl (List.mem_cons_of_mem i hjseen)))

/-- `SubTree` is transitive. -/
theorem subTree_trans {a b c : Module} (h1 : SubTree a b) (h2 : SubTree b c) :
    SubTree a c := by
  induction h2 with
  | refl => exact h1
  | step hd _ ih => exact .step hd ih

/-- A subtree is no larger than its host tree. -/
theorem sizeOf_le_of_subTree {m r : Module} (h : SubTree m r) :
    sizeOf m ≤ sizeOf r := by
  induction h with
  | refl => exact Nat.le_refl _
  | step hc _ ih =>
    refine Nat.le_trans ih (Nat.le_of_lt ?_)
    simp only [Module.mk.sizeOf_spec]
    have h1 := List.sizeOf_lt_of_mem hc
    omega

/-- Occurrence in the forest is closed under taking subtrees. -/
theorem inForest_of_subTree {m r : Module} {U : List Module}
    (hr : InForest r U) (h : SubTree m r) : InForest m U := by
  obtain ⟨t, ht, hsub⟩ := hr
  exact ⟨t, ht, subTree_trans h hsub⟩

/-- The ids of a forest are exactly the ids of the modules occurring in it. -/
theorem mem_moduleIds (ms : List Module) :
    ∀ j, j ∈ moduleIds ms ↔ ∃ m, InForest m ms ∧ m.mid = j := by
  induction ms using moduleIds.induct with
  | case1 =>
    intro j
    constructor
    · intro h
      simp [moduleIds] at h
    · rintro ⟨m, ⟨r, hr, _⟩, _⟩
      cases hr
  | case2 i ps subs rest ih1 ih2 =>
    intro j
    rw [moduleIds_cons]
    constructor
    · intro hj
      rcases List.mem_cons.mp hj with rfl | hj2
      · exact ⟨.mk j ps subs, ⟨.mk j ps subs, List.mem_cons_self _ _, .refl _⟩, rfl⟩
      rcases List.mem_append.mp hj2 with hjs | hjr
      · obtain ⟨m, ⟨r, hr, hsub⟩, hmid⟩ := (ih1 j).mp hjs
        exact ⟨m, ⟨.mk i ps subs, List.mem_cons_self _ _, .step hr hsub⟩, hmid⟩
      · obtain ⟨m, ⟨r, hr, hsub⟩, hmid⟩ := (ih2 j).mp hjr
        exact ⟨m, ⟨r, List.mem_cons_of_mem _ hr, hsub⟩, hmid⟩
    · rintro ⟨m, ⟨r, hr, hsub⟩, hmid⟩
      rcases List.mem_cons.mp hr with rfl | hr2
      · cases hsub with
        | refl =>
          have hij : i = j := hmid
          rw [← hij]
          exact List.mem_cons_self _ _
        | step hc hs =>
          refine List.mem_cons_of_mem _ (List.mem_append.mpr (Or.inl ?_))
          exact (ih1 j).mpr ⟨_, ⟨_, hc, hs⟩, hmid⟩
      · refine List.mem_cons_of_mem _ (List.mem_append.mpr (Or.inr ?_))
        exact (ih2 j).mpr ⟨m, ⟨r, hr2, hsub⟩, hmid⟩

/-- Ids of a sub-module's tree are ids of the parent's tree. -/
theorem moduleIds_sub_subset (i : Nat) (ps : List DynProvider) (subs : List Module)
    {m : Module} (hm : m ∈ subs) :
    ∀ j ∈ moduleIds [m], j ∈ moduleIds [Module.mk i ps subs] := by
  intro j hj
  obtain ⟨n, ⟨r, hr, hsub⟩, hmid⟩ := (mem_moduleIds [m] j).mp hj
  have hr' : r = m := by simpa using hr
  subst hr'
  exact (mem_moduleIds [Module.mk i ps subs] j).mpr
    ⟨n, ⟨_, List.mem_cons_self _ _, .step hm hsub⟩, hmid⟩

/-- In a coherent universe, a module's identity cannot reappear beneath one
of its own sub-modules (otherwise the module would be a strict subtree of
itself). -/
theorem no_self_nested {U : List Module} (hco : Coherent U) (i : Nat)
    (ps : List DynProvider) (subs : List Module)
    (hm0 : InForest (.mk i ps subs) U) {m : Module} (hm : m ∈ subs) :
    i ∉ moduleIds [m] := by
  intro hmem
  obtain ⟨n, hnf, hnid⟩ := (mem_moduleIds [m] i).mp hmem
  obtain ⟨r, hr, hsub⟩ := hnf
  have hr' : r = m := by simpa using hr
  rw [hr'] at hsub
  have hn0 : SubTree n (.mk i ps subs) := .step hm hsub
  have hnU : InForest n U := inForest_of_subTree hm0 hn0
  have heq : n = .mk i ps subs := hco n _ hnU hm0 hnid
  have h1 : sizeOf n ≤ sizeOf m := sizeOf_le_of_subTree hsub
  have h2 : sizeOf m < sizeOf subs := List.sizeOf_lt_of_mem hm
  have h3 : sizeOf (Module.mk i ps subs) = 1 + sizeOf i + sizeOf ps + sizeOf subs := by
    simp
  rw [heq] at h1
  omega

/-- Every emitted entry of `flattenGo` comes from a module occurring in the
worklist forest: its identity and its provider list. -/
theorem flattenGo_source (ms : List Module) (seen : List Nat) :
    ∀ e ∈ (flattenGo ms seen).1,
      ∃ m, InForest m ms ∧ m.mid = e.1 ∧ m.provs = e.2 := by
  induction ms, seen using flattenGo.induct with
  | case1 seen =>
    intro e he
    rw [flattenGo_nil] at he
    cases he
  | case2 i ps subs rest seen hmem ih =>
    intro e he
    rw [flattenGo_cons_skip i ps subs rest seen hmem] at he
    obtain ⟨m, ⟨r, hr, hsub⟩, h1, h2⟩ := ih e he
    exact ⟨m, ⟨r, List.mem_cons_of_mem _ hr, hsub⟩, h1, h2⟩
  | case3 i ps subs rest seen hmem r1 ih1 ih2 =>
    have hr1 : r1 = flattenGo subs (i :: seen) := rfl
    rw [hr1] at ih2
    intro e he
    rw [flattenGo_cons_new i ps subs rest seen hmem] at he
    rcases List.mem_cons.mp he with rfl | he2
    · exact ⟨.mk i ps subs, ⟨.mk i ps subs, List.mem_cons_self _ _, .refl _⟩, rfl, rfl⟩
    rcases List.mem_append.mp he2 with hes | her
    · obtain ⟨m, ⟨r, hr, hsub⟩, h1, h2⟩ := ih1 e hes
      exact ⟨m, ⟨.mk i ps subs, List.mem_cons_self _ _, .step hr hsub⟩, h1, h2⟩
    · obtain ⟨m, ⟨r, hr, hsub⟩, h1, h2⟩ := ih2 e her
      exact ⟨m, ⟨r, List.mem_cons_of_mem _ hr, hsub⟩, h1, h2⟩

/-- Completeness of the deduplicating walk: in a coherent universe, starting
from a closed seen-set, every identity of the worklist forest ends up seen,
and the final seen-set is closed again.  `anc` carries the identities of the
ancestors whose sub-walks are still in progress; no worklist tree may mention
them. -/
theorem flattenGo_complete (U : List Module) (hco : Coherent U)
    (ms : List Module) (seen : List Nat) :
    ∀ anc : List Nat,
      (∀ m ∈ ms, InForest m U) →
      (∀ a ∈ anc, ∀ m ∈ ms, a ∉ moduleIds [m]) →
      SeenClosed U anc seen →
      (∀ j ∈ moduleIds ms, j ∈ (flattenGo ms seen).2) ∧
      SeenClosed U anc (flattenGo ms seen).2 := by
  induction ms, seen using flattenGo.induct with
  | case1 seen =>
    intro anc _ _ hseen
    rw [flattenGo_nil]
    constructor
    · intro j hj
      simp [moduleIds] at hj
    · exact hseen
  | case2 i ps subs rest seen hmem ih =>
    intro anc hfor hanc hseen
    rw [flattenGo_cons_skip i ps subs rest seen hmem]
    have hm0U : InForest (Module.mk i ps subs) U := hfor _ (List.mem_cons_self _ _)
    have hinotanc : i ∉ anc := by
      intro hia
      exact (hanc i hia _ (List.mem_cons_self _ _))
        (by rw [moduleIds_single]; exact List.mem_cons_self _ _)
    have htree : ∀ x ∈ moduleIds [Module.mk i ps subs], x ∈ seen := by
      rcases hseen i hmem with hia | hcl
      · exact absurd hia hinotanc
      · exact hcl _ hm0U rfl
    obtain ⟨ihC1, ihC2⟩ := ih anc (fun m hm => hfor m (List.mem_cons_of_mem _ hm))
      (fun a ha m hm => hanc a ha m (List.mem_cons_of_mem _ hm)) hseen
    refine ⟨?_, ihC2⟩
    intro j hj
    rw [moduleIds_cons] at hj
    have hmono : ∀ x ∈ seen, x ∈ (flattenGo rest seen).2 := fun x hx =>
      (flattenGo_seen rest seen x).mpr (Or.inl hx)
    rcases List.mem_cons.mp hj with rfl | hj2
    · exact hmono _ hmem
    rcases List.mem_append.mp hj2 with hjs | hjr
    · refine hmono _ (htree j ?_)
      rw [moduleIds_single]
      exact List.mem_cons_of_mem _ hjs
    · exact ihC1 j hjr
  | case3 i ps subs rest seen hmem r1 ih1 ih2 =>
    have hr1 : r1 = flattenGo subs (i :: seen) := rfl
    rw [hr1] at ih2
    intro anc hfor hanc hseen
    have hm0U : InForest (Module.mk i ps subs) U := hfor _ (List.mem_cons_self _ _)
    have hsubsFor : ∀ m ∈ subs, InForest m U := fun m hm =>
      inForest_of_subTree hm0U (.step hm (.refl m))
    have hsubsAnc : ∀ a ∈ i :: anc, ∀ m ∈ subs, a ∉ moduleIds [m] := by
      intro a ha m hm
      rcases List.mem_cons.mp ha with rfl | ha2
      · exact no_self_nested hco a ps subs hm0U hm
      · intro hx
        exact (hanc a ha2 _ (List.mem_cons_self _ _))
          (moduleIds_sub_subset i ps subs hm a hx)
    have hseenClosed' : SeenClosed U (i :: anc) (i :: seen) := by
      intro j hj
      rcases List.mem_cons.mp hj with rfl | hj2
      · exact Or.inl (List.mem_cons_self _ _)
      rcases hseen j hj2 with hja | hcl
      · exact Or.inl (List.mem_cons_of_mem _ hja)
      · exact Or.inr fun m hmU hmid x hx => List.mem_cons_of_mem _ (hcl m hmU hmid x hx)
    obtain ⟨C1s, C2s⟩ := ih1 (i :: anc) hsubsFor hsubsAnc hseenClosed'
    have hmono1 : ∀ x ∈ i :: seen, x ∈ (flattenGo subs (i :: seen)).2 := fun x hx =>
      (flattenGo_seen subs (i :: seen) x).mpr (Or.inl hx)
    have hiClosed : ∀ m, InForest m U → m.mid = i →
        ∀ x ∈ moduleIds [m], x ∈ (flattenGo subs (i :: seen)).2 := by
      intro m hmU hmid x hx
      have hmeq : m = Module.mk i ps subs := hco m _ hmU hm0U hmid
      rw [hmeq, moduleIds_single] at hx
      rcases List.mem_cons.mp hx with rfl | hx2
      · exact hmono1 _ (List.mem_cons_self _ _)
      · exact C1s x hx2
    have hseen1Closed : SeenClosed U anc (flattenGo subs (i :: seen)).2 := by
      intro j hj
      rcases C2s j hj with hja | hcl
      · rcases List.mem_cons.mp hja with rfl | hja2
        · exact Or.inr hiClosed
        · exact Or.inl hja2
      · exact Or.inr hcl
    obtain ⟨C1r, C2r⟩ := ih2 anc (fun m hm => hfor m (List.mem_cons_of_mem _ hm))
      (fun a ha m hm => hanc a ha m (List.mem_cons_of_mem _ hm)) hseen1Closed
    rw [flattenGo_cons_new i ps subs rest seen hmem]
    have hmono2 : ∀ x ∈ (flattenGo subs (i :: seen)).2,
        x ∈ (flattenGo rest (flattenGo subs (i :: seen)).2).2 := fun x hx =>
      (flattenGo_seen rest _ x).mpr (Or.inl hx)
    constructor
    · intro j hj
      rw [moduleIds_cons] at hj
      rcases List.mem_cons.mp hj with rfl | hj2
      · exact hmono2 _ (hmono1 _ (List.mem_cons_self _ _))
      rcases List.mem_append.mp hj2 with hjs | hjr
      · exact hmono2 _ (C1s j hjs)
      · exact C1r j hjr
    · exact C2r

/-- In a list of pairs with distinct first components, filtering on the first
component of a member yields exactly that member. -/
theorem filter_eq_single {α β : Type} [DecidableEq α] :
    ∀ (l : List (α × β)) (e : α × β), (l.map Prod.fst).Nodup → e ∈ l →
      l.filter (fun x => decide (x.1 = e.1)) = [e] := by
  intro l
  induction l with
  | nil =>
    intro e _ h
    cases h
  | cons h t ih =>
    intro e hnd hmem
    simp only [List.map_cons, List.nodup_cons] at hnd
    obtain ⟨hh, ht⟩ := hnd
    rcases List.mem_cons.mp hmem with rfl | hmem2
    · rw [List.filter_cons_of_pos (by simp)]
      have hnil : t.filter (fun x => decide (x.1 = e.1)) = [] := by
        rw [List.filter_eq_nil_iff]
        intro x hx
        simp only [decide_eq_true_eq]
        intro hx1
        exact hh (hx1 ▸ List.mem_map_of_mem Prod.fst hx)
      rw [hnil]
    · have hne : ¬(h.1 = e.1) := by
        intro heq
        exact hh (heq ▸ List.mem_map_of_mem Prod.fst hmem2)
      rw [List.filter_cons_of_neg (by simpa using hne)]
      exact ih e ht hmem2

/-- Inverting `SubTree` into a leaf module. -/
theorem subTree_leaf {m : Module} {i : Nat} {ps : List DynProvider}
    (h : SubTree m (.mk i ps [])) : m = .mk i ps [] := by
  cases h with
  | refl => rfl
  | step hc _ => cases hc

/-- Inverting `SubTree` into a module with exactly one sub-module. -/
theorem subTree_one {m c0 : Module} {i : Nat} {ps : List DynProvider}
    (h : SubTree m (.mk i ps [c0])) : m = .mk i ps [c0] ∨ SubTree m c0 := by
  cases h with
  | refl => exact Or.inl rfl
  | step hc hs =>
    have hc' := List.mem_singleton.mp hc
    rw [hc'] at hs
    exact Or.inr hs

/-- Every module occurring in the diamond forest is one of its three
modules. -/
theorem diamond_enum (m : Module) (h : InForest m [diamondM1, diamondM2]) :
    m = diamondM1 ∨ m = diamondM2 ∨ m = diamondS := by
  obtain ⟨r, hr, hsub⟩ := h
  rcases List.mem_cons.mp hr with rfl | hr2
  · rcases subTree_one (show SubTree m (.mk 1 [dProv1] [diamondS]) from hsub) with h1 | h1
    · exact Or.inl h1
    · exact Or.inr (Or.inr (subTree_leaf h1))
  · have hr2' := List.mem_singleton.mp hr2
    rw [hr2'] at hsub
    rcases subTree_one (show SubTree m (.mk 2 [dProv2] [diamondS]) from hsub) with h1 | h1
    · exact Or.inr (Or.inl h1)
    · exact Or.inr (Or.inr (subTree_leaf h1))

/-- The diamond forest is coherent: its identities determine its modules. -/
theorem diamond_coherent : Coherent [diamondM1, diamondM2] := by
  intro m1 m2 h1 h2 hmid
  rcases diamond_enum m1 h1 with rfl | rfl | rfl <;>
    rcases diamond_enum m2 h2 with rfl | rfl | rfl <;>
    first
      | rfl
      | (exfalso
         simp [diamondM1, diamondM2, diamondS, Module.mid] at hmid)

/-! ## The claims -/

/-- **C1**: for every Context and Key `k`, a resolve call entered while `k` is
already on the resolution stack fails with a Cycle error carrying the ordered
stack of in-flight keys (with `k` appended), performs no construction (the
Context is returned unchanged), the stack is popped on every exit path of
every resolve call, and — concretely, for a self-depending provider — the
cycle failure leaves the Context usable for unrelated resolutions. -/
theorem resolve_cycle_detection :
    (∀ (sync : Bool) (fuel : Nat) (cx : Context) (k : Key),
        k ∈ cx.stack →
          resolve sync fuel cx k = (.error (.cycle (cx.stack ++ [k])), cx)) ∧
    (∀ (sync : Bool) (fuel : Nat) (cx : Context) (k : Key),
        ((resolve sync fuel cx k).2).stack = cx.stack) ∧
    resolve true 9 cycleCtx keyA = (.error (.cycle [keyA, keyA]), cycleCtx) ∧
    resolve true 9 cycleCtx keyB = (.ok (.atom (.vInt 7)), cycleCtx) := by
  refine ⟨?_, ?_, rfl, rfl⟩
  · intro sync fuel cx k h
    cases fuel <;> simp [resolve, h]
  · intro sync fuel cx k
    exact (stack_restored sync fuel).1 cx k

/-- Witness for C1: entering resolve with the key already on the stack, at a
concrete context, yields exactly the Cycle error with the ordered stack and
leaves the context unchanged. -/
theorem resolve_cycle_detection_witness :
    resolve true 3 ⟨[], [], [], [keyA]⟩ keyA
      = (.error (.cycle ([keyA] ++ [keyA])), ⟨[], [], [], [keyA]⟩) :=
  resolve_cycle_detection.1 true 3 ⟨[], [], [], [keyA]⟩ keyA (by decide)

/-- **C3**: creating a Context from the standalone instances `42` and `true`
with no modules, resolving the integer type yields `42`, resolving the boolean
type yields `true`, and the Singleton-instance count afterwards equals 2. -/
theorem standalone_instances_resolve :
    Context.create 9 seedsSpec [] = .ok ctxSpec ∧
    (resolve true 9 ctxSpec ⟨1, ""⟩).1 = .ok (.atom (.vInt 42)) ∧
    (resolve true 9 ctxSpecAfterInt ⟨2, ""⟩).1 = .ok (.atom (.vBool true)) ∧
    ctxSpecAfterBool.singletonsLen = 2 :=
  ⟨create_noModules 9 seedsSpec, rfl, rfl, rfl⟩

/-- **C4, counterexample**: in the two-instance scenario the cached
Singleton-instance count immediately after Context creation is 0, not the
number of seeded instances (2) — exactly what the in-repository test
`standalone_variables` asserts (`singletons_len() == 0` before any resolve). -/
theorem standalone_seed_cache_counterexample :
    Context.create 9 seedsSpec [] = .ok ctxSpec ∧
    seedsSpec.length = 2 ∧
    ctxSpec.singletonsLen = 0 ∧
    ctxSpec.singletonsLen ≠ 2 :=
  ⟨create_noModules 9 seedsSpec, rfl, rfl, by decide⟩

/-- **C4, amended**: pre-seeded standalone instances are registered as
(non-eager, Singleton) providers rather than as already-cached instances: for
every Context created from seeds and no modules, the cached Singleton-instance
count immediately after creation is 0; the count reaches the number of seeded
instances only after each seeded type has been resolved once, as in the
three-instance test. -/
theorem standalone_seed_cache_amended :
    (∀ (fuel : Nat) (seeds : List Seed),
        Context.create fuel seeds [] = .ok ⟨seeds.map seedProvider, [], [], []⟩ ∧
        (Context.mk (seeds.map seedProvider) [] [] []).singletonsLen = 0) ∧
    ctxTest.singletonsLen = 0 ∧
    (resolve true 9 ctxTest ⟨1, ""⟩).1 = .ok (.atom (.vInt 42)) ∧
    (resolve true 9 ctxTest1 ⟨2, ""⟩).1 = .ok (.atom (.vBool true)) ∧
    (resolve true 9 ctxTest2 ⟨3, ""⟩).1 = .ok (.atom (.vStr "Hello world")) ∧
    seedsTest.length = 3 ∧
    ctxTest3.singletonsLen = 3 :=
  ⟨fun fuel seeds => ⟨create_noModules fuel seeds, rfl⟩, rfl, rfl, rfl, rfl, rfl, rfl⟩

/-- **C8**: every provider derived from a pre-seeded standalone instance has
scope Singleton and eager-create `false`, for every seed; and in the
three-instance test context, after the three resolutions, every registry entry
satisfies both (mirroring the test's `iter()` loop). -/
theorem seed_provider_invariants :
    (∀ s : Seed,
        (seedProvider s).scope = .Singleton ∧ (seedProvider s).eagerCreate = false) ∧
    (∀ p ∈ ctxTest3.registry, p.scope = .Singleton ∧ p.eagerCreate = false) := by
  refine ⟨fun s => ⟨rfl, rfl⟩, ?_⟩
  decide

/-- **C2**: flattening walks the module trees depth-first and records each
distinct identity only on first encounter: the emitted identities are
distinct; in a coherent forest (identities determine modules, as Rust types
do) every transitively included sub-module's entry — its identity with its
providers — survives exactly once; and on the concrete diamond (two modules
sharing a sub-module) the output lists each provider list once, in
first-encounter depth-first order. -/
theorem flatten_dedup :
    (∀ ms : List Module, ((flatten ms).map Prod.fst).Nodup) ∧
    (∀ (ms : List Module) (S : Module), Coherent ms → InForest S ms →
        (flatten ms).filter (fun e => decide (e.1 = S.mid)) = [(S.mid, S.provs)]) ∧
    flatten [diamondM1, diamondM2] = [(1, [dProv1]), (3, [dProvS]), (2, [dProv2])] := by
  have hnd : ∀ ms : List Module, ((flatten ms).map Prod.fst).Nodup := fun ms =>
    (flattenGo_nodup ms []).1
  refine ⟨hnd, ?_, ?_⟩
  · intro ms S hco hSf
    have hmemid : S.mid ∈ moduleIds ms := (mem_moduleIds ms S.mid).mpr ⟨S, hSf, rfl⟩
    have hforest : ∀ m ∈ ms, InForest m ms := fun m hm => ⟨m, hm, .refl m⟩
    have hanc : ∀ a ∈ ([] : List Nat), ∀ m ∈ ms, a ∉ moduleIds [m] := by
      intro a ha
      cases ha
    have hseen0 : SeenClosed ms [] [] := by
      intro j hj
      cases hj
    obtain ⟨hc1, _⟩ := flattenGo_complete ms hco ms [] [] hforest hanc hseen0
    have hsm : S.mid ∈ (flattenGo ms []).2 := hc1 S.mid hmemid
    have hsm2 : S.mid ∈ (flattenGo ms []).1.map Prod.fst := by
      rcases (flattenGo_seen ms [] S.mid).mp hsm with h | h
      · cases h
      · exact h
    obtain ⟨e, he, he1⟩ := List.mem_map.mp hsm2
    obtain ⟨m, hmf, hmid, hprovs⟩ := flattenGo_source ms [] e he
    have hmS : m = S := hco m S hmf hSf (by rw [hmid, he1])
    have heq : e = (S.mid, S.provs) := by
      rcases e with ⟨a, b⟩
      simp only at he1 hprovs
      rw [Prod.mk.injEq]
      constructor
      · exact he1
      · rw [← hprovs, hmS]
    have hfil := filter_eq_single (flatten ms) e (hnd ms) he
    rw [← heq, ← he1]
    exact hfil
  · simp [flatten, flattenGo, diamondM1, diamondM2, diamondS]

/-- Witness for C2: in the diamond forest, the shared sub-module's entry
(identity with its providers) survives flattening exactly once. -/
theorem flatten_dedup_witness :
    (flatten [diamondM1, diamondM2]).filter (fun e => decide (e.1 = diamondS.mid))
      = [(diamondS.mid, diamondS.provs)] :=
  flatten_dedup.2.1 [diamondM1, diamondM2] diamondS diamond_coherent
    ⟨diamondM1, List.mem_cons_self _ _,
      show SubTree diamondS (.mk 1 [dProv1] [diamondS]) from
        .step (List.mem_singleton.mpr rfl) (.refl _)⟩

/-- **C5**: for a Context whose registry holds only well-typed erased entries
(the stored type tag equals the key's type identity, as every
`DynProvider::from` erasure guarantees), `get_provider` returns Some whenever
a provider for the requested key is registered; and it returns None iff the
key is absent or the stored erased type does not match the request.  Contexts
created from modules with no eager providers carry exactly the flattened
registry. -/
theorem getProvider_spec :
    (∀ (cx : Context) (t : Nat) (n : String),
        (∀ p ∈ cx.registry, p.storedType = p.key.typeId) →
        (∃ p ∈ cx.registry, p.key = ⟨t, n⟩) →
        ∃ q, cx.getProvider t n = some q ∧ q.key = ⟨t, n⟩) ∧
    (∀ (cx : Context) (t : Nat) (n : String),
        cx.getProvider t n = none ↔
          lookupProvider cx.registry ⟨t, n⟩ = none ∨
            ∃ p, lookupProvider cx.registry ⟨t, n⟩ = some p ∧ p.storedType ≠ t) ∧
    (∀ tp : Provider,
        (DynProvider.from tp).storedType = (DynProvider.from tp).key.typeId) ∧
    (∀ (fuel : Nat) (seeds : List Seed) (ms : List Module),
        (∀ p ∈ createRegistry seeds ms, p.eagerCreate = false) →
        Context.create fuel seeds ms = .ok ⟨createRegistry seeds ms, [], [], []⟩) := by
  refine ⟨?_, ?_, fun tp => rfl, ?_⟩
  · intro cx t n hW hex
    obtain ⟨p, hp, hkey⟩ := hex
    have hsome : (cx.registry.reverse.find? (fun q => decide (q.key = ⟨t, n⟩))).isSome := by
      apply List.find?_isSome.mpr
      exact ⟨p, List.mem_reverse.mpr hp, by simp [hkey]⟩
    obtain ⟨q, hq⟩ := Option.isSome_iff_exists.mp hsome
    have hqkey : q.key = ⟨t, n⟩ := by
      have := List.find?_some hq
      simpa using this
    have hqmem : q ∈ cx.registry := List.mem_reverse.mp (List.mem_of_find?_eq_some hq)
    have hqst : q.storedType = t := by
      have h1 := hW q hqmem
      rw [hqkey] at h1
      exact h1
    refine ⟨q, ?_, hqkey⟩
    simp only [Context.getProvider, lookupProvider]
    rw [hq]
    simp [hqst]
  · intro cx t n
    simp only [Context.getProvider]
    rcases h : lookupProvider cx.registry ⟨t, n⟩ with _ | p
    · simp
    · by_cases hst : p.storedType = t <;> simp [hst]
  · intro fuel seeds ms h
    unfold Context.create
    exact eagerSweep_no_eager fuel _ _ h

/-- Witness for C5: in the generic-provider test context (one synchronous and
one asynchronous generic provider registered through a module), `get_provider`
finds both. -/
theorem getProvider_spec_witness :
    (∃ q, genericCtx.getProvider 20 "" = some q ∧ q.key = ⟨20, ""⟩) ∧
    (∃ q, genericCtx.getProvider 21 "" = some q ∧ q.key = ⟨21, ""⟩) := by
  have hreg : genericCtx.registry = [DynProvider.from provGenA, DynProvider.from provGenB] := by
    simp [genericCtx, createRegistry, flattenProviders, flatten, flattenGo, genericMod]
  constructor
  · exact getProvider_spec.1 genericCtx 20 ""
      (by rw [hreg]; decide) (by rw [hreg]; decide)
  · exact getProvider_spec.1 genericCtx 21 ""
      (by rw [hreg]; decide) (by rw [hreg]; decide)

/-- **C10**: each of the three declarative macros is an elementwise, order-
and length-preserving conversion: the empty invocation yields the empty
vector, and `n` arguments yield exactly `n` elements in argument order —
`modules!` through `ResolveModule::new`, `providers!` through
`DynProvider::from`, and `components!` through
`DynProvider::from(C::provider())`. -/
theorem declarative_macros_elementwise :
    (modulesExpand [] = [] ∧ providersExpand [] = [] ∧ componentsExpand [] = []) ∧
    (∀ args : List Module,
        (modulesExpand args).length = args.length ∧
        ∀ i : Nat, (modulesExpand args)[i]? = (args[i]?).map ResolveModule.new) ∧
    (∀ args : List Provider,
        (providersExpand args).length = args.length ∧
        ∀ i : Nat, (providersExpand args)[i]? = (args[i]?).map DynProvider.from) ∧
    (∀ args : List Component,
        (componentsExpand args).length = args.length ∧
        ∀ i : Nat, (componentsExpand args)[i]? =
          (args[i]?).map (fun c => DynProvider.from c.defaultProvider)) := by
  have hm : ∀ args : List Module, modulesExpand args = args.map ResolveModule.new := by
    intro args
    cases args <;> rfl
  have hp : ∀ args : List Provider, providersExpand args = args.map DynProvider.from := by
    intro args
    cases args <;> rfl
  have hc : ∀ args : List Component,
      componentsExpand args = args.map (fun c => DynProvider.from c.defaultProvider) := by
    intro args
    cases args <;> rfl
  refine ⟨⟨rfl, rfl, rfl⟩, ?_, ?_, ?_⟩ <;> intro args <;>
    simp [hm, hp, hc]

end Rudi

namespace Codegen

/-- The builder-chain of `.bind` calls never touches the provider's name. -/
theorem bindFold_name : ∀ (bs : List String) (q : GenProvider),
    (bs.foldl bindCall q).name = q.name := by
  intro bs
  induction bs with
  | nil => intro q; rfl
  | cons b rest ih =>
    intro q
    simpa [bindCall] using ih { q with binds := q.binds ++ [b] }

/-- The builder-chain of `.bind` calls appends exactly the listed paths, in
order, to the provider's binds. -/
theorem bindFold_binds : ∀ (bs : List String) (q : GenProvider),
    (bs.foldl bindCall q).binds = q.binds ++ bs := by
  intro bs
  induction bs with
  | nil => intro q; simp
  | cons b rest ih =>
    intro q
    simp [bindCall, ih { q with binds := q.binds ++ [b] }]

/-- **C6**: for every component declaration, when no `name` attribute is
given the generated provider's name is the empty string (the unnamed instance
of its type); when a `name` attribute is given, the generated provider
carries exactly that name. -/
theorem generated_name :
    ∀ (a : ProviderAttribute) (scope : Rudi.Scope),
      (a.name = none → (generate a scope).name = .lit "") ∧
      (∀ nv, a.name = some nv → (generate a scope).name = nv) := by
  intro a scope
  constructor
  · intro h
    simp [generate, bindFold_name, ProviderAttribute.simplify, h]
  · intro nv h
    simp [generate, bindFold_name, ProviderAttribute.simplify, h]

/-- Witness for C6: the empty attribute list generates the name `""`, and
`name = "hello"` generates exactly the name `"hello"`. -/
theorem generated_name_witness :
    (generate ProviderAttribute.empty .Transient).name = .lit "" ∧
    (generate attrNamed .Singleton).name = .lit "hello" :=
  ⟨(generated_name ProviderAttribute.empty .Transient).1 rfl,
   (generated_name attrNamed .Singleton).2 (.lit "hello") rfl⟩

/-- **C7**: for a struct annotated with `binds = [f1, ..., fn]`, the
generated `provider()` applies exactly one bind transform per listed path, in
the listed order (so the instance is re-exposed under exactly `n` additional
keys); with no binds attribute, no bind transform is applied. -/
theorem generated_binds :
    ∀ (a : ProviderAttribute) (scope : Rudi.Scope),
      (∀ ps, a.binds = some ps → (generate a scope).binds = ps) ∧
      (a.binds = none → (generate a scope).binds = []) := by
  intro a scope
  constructor
  · intro ps h
    simp [generate, bindFold_binds, ProviderAttribute.simplify, h]
  · intro h
    simp [generate, bindFold_binds, ProviderAttribute.simplify, h]

/-- Witness for C7: `binds = [Self::into_service]` generates exactly that one
bind call, and the empty attribute list generates none. -/
theorem generated_binds_witness :
    (generate attrBinds .Singleton).binds = ["Self::into_service"] ∧
    (generate ProviderAttribute.empty .Transient).binds = [] :=
  ⟨(generated_binds attrBinds .Singleton).1 ["Self::into_service"] rfl,
   (generated_binds ProviderAttribute.empty .Transient).2 rfl⟩

/-- `bindPaths` succeeds exactly when every element is an expression path. -/
theorem bindPaths_isOk : ∀ es : List AExpr, (bindPaths es).isOk = es.all isPathExpr := by
  intro es
  induction es with
  | nil => rfl
  | cons e rest ih =>
    cases e with
    | pathE p =>
      simp only [bindPaths, List.all_cons, isPathExpr, Bool.true_and]
      cases h : bindPaths rest with
      | ok ps => rw [h] at ih; simpa [Except.isOk, Except.toBool] using ih
      | error err => rw [h] at ih; simpa [Except.isOk, Except.toBool] using ih
    | litStr s => simp [bindPaths, isPathExpr, Except.isOk, Except.toBool]
    | call c => simp [bindPaths, isPathExpr, Except.isOk, Except.toBool]
    | arrayE elems => simp [bindPaths, isPathExpr, Except.isOk, Except.toBool]
    | otherE => simp [bindPaths, isPathExpr, Except.isOk, Except.toBool]

/-- A slot is set at most once. -/
theorem slotCount_le_one (acc : ProviderAttribute) (i : AttrIdent) :
    slotCount acc i ≤ 1 := by
  cases i <;> simp [slotCount] <;> split <;> simp

/-- One parse-loop iteration succeeds exactly when the argument is
well-shaped and its slot is still empty. -/
theorem parseStep_isOk (acc : ProviderAttribute) (m : AMeta) :
    (parseStep acc m).isOk = true ↔
      (metaShapeOk m = true ∧ slotCount acc (AMeta.ident m) = 0) := by
  rcases m with j | ⟨j, v⟩ | j
  · cases j
    case nameA =>
      rcases hf : acc.name with _ | z <;>
        simp [parseStep, metaShapeOk, slotCount, AMeta.ident, requireNameValue, hf,
          Except.isOk, Except.toBool]
    case eagerCreateA =>
      rcases hf : acc.eagerCreate with _ | z <;>
        simp [parseStep, metaShapeOk, slotCount, AMeta.ident, requirePathOnly, hf,
          Except.isOk, Except.toBool]
    case bindsA =>
      rcases hf : acc.binds with _ | z <;>
        simp [parseStep, metaShapeOk, slotCount, AMeta.ident, requireNameValue, hf,
          Except.isOk, Except.toBool]
    case asyncConstructorA =>
      rcases hf : acc.asyncConstructor with _ | z <;>
        simp [parseStep, metaShapeOk, slotCount, AMeta.ident, requirePathOnly, hf,
          Except.isOk, Except.toBool]
    case notAutoRegisterA =>
      rcases hf : acc.notAutoRegister with _ | z <;>
        simp [parseStep, metaShapeOk, slotCount, AMeta.ident, requirePathOnly, hf,
          Except.isOk, Except.toBool]
    case otherA s =>
      simp [parseStep, metaShapeOk, AMeta.ident, Except.isOk, Except.toBool]
  · cases j
    case nameA =>
      rcases hf : acc.name with _ | z <;>
        cases v <;>
        simp [parseStep, metaShapeOk, slotCount, AMeta.ident, requireNameValue,
          nameTryFrom, hf, Except.isOk, Except.toBool]
    case eagerCreateA =>
      rcases hf : acc.eagerCreate with _ | z <;>
        simp [parseStep, metaShapeOk, slotCount, AMeta.ident, requirePathOnly, hf,
          Except.isOk, Except.toBool]
    case bindsA =>
      rcases hf : acc.binds with _ | z <;> cases v
      case none.arrayE elems =>
        rcases hb : bindPaths elems with e | ps <;>
          have hball := bindPaths_isOk elems <;>
          rw [hb] at hball <;>
          simp [parseStep, metaShapeOk, slotCount, AMeta.ident, requireNameValue, hf, hb,
            ← hball, Except.isOk, Except.toBool]
      all_goals
        simp [parseStep, metaShapeOk, slotCount, AMeta.ident, requireNameValue, hf,
          Except.isOk, Except.toBool]
    case asyncConstructorA =>
      rcases hf : acc.asyncConstructor with _ | z <;>
        simp [parseStep, metaShapeOk, slotCount, AMeta.ident, requirePathOnly, hf,
          Except.isOk, Except.toBool]
    case notAutoRegisterA =>
      rcases hf : acc.notAutoRegister with _ | z <;>
        simp [parseStep, metaShapeOk, slotCount, AMeta.ident, requirePathOnly, hf,
          Except.isOk, Except.toBool]
    case otherA s =>
      simp [parseStep, metaShapeOk, AMeta.ident, Except.isOk, Except.toBool]
  · cases j
    case nameA =>
      rcases hf : acc.name with _ | z <;>
        simp [parseStep, metaShapeOk, slotCount, AMeta.ident, requireNameValue, hf,
          Except.isOk, Except.toBool]
    case eagerCreateA =>
      rcases hf : acc.eagerCreate with _ | z <;>
        simp [parseStep, metaShapeOk, slotCount, AMeta.ident, requirePathOnly, hf,
          Except.isOk, Except.toBool]
    case bindsA =>
      rcases hf : acc.binds with _ | z <;>
        simp [parseStep, metaShapeOk, slotCount, AMeta.ident, requireNameValue, hf,
          Except.isOk, Except.toBool]
    case asyncConstructorA =>
      rcases hf : acc.asyncConstructor with _ | z <;>
        simp [parseStep, metaShapeOk, slotCount, AMeta.ident, requirePathOnly, hf,
          Except.isOk, Except.toBool]
    case notAutoRegisterA =>
      rcases hf : acc.notAutoRegister with _ | z <;>
        simp [parseStep, metaShapeOk, slotCount, AMeta.ident, requirePathOnly, hf,
          Except.isOk, Except.toBool]
    case otherA s =>
      simp [parseStep, metaShapeOk, AMeta.ident, Except.isOk, Except.toBool]

/-- A successful parse-loop iteration fills exactly the slot of the
argument's identifier. -/
theorem parseStep_slots (acc : ProviderAttribute) (m : AMeta) (acc' : ProviderAttribute)
    (h : parseStep acc m = .ok acc') :
    ∀ i, slotCount acc' i = slotCount acc i + (if AMeta.ident m = i then 1 else 0) := by
  intro i
  rcases m with j | ⟨j, v⟩ | j
  · cases j
    case nameA =>
      rcases hf : acc.name with _ | z <;>
        simp [parseStep, AMeta.ident, requireNameValue, hf] at h
    case eagerCreateA =>
      rcases hf : acc.eagerCreate with _ | z <;>
        simp [parseStep, AMeta.ident, requirePathOnly, hf] at h
      subst h
      cases i <;> simp [slotCount, AMeta.ident, hf]
    case bindsA =>
      rcases hf : acc.binds with _ | z <;>
        simp [parseStep, AMeta.ident, requireNameValue, hf] at h
    case asyncConstructorA =>
      rcases hf : acc.asyncConstructor with _ | z <;>
        simp [parseStep, AMeta.ident, requirePathOnly, hf] at h
      subst h
      cases i <;> simp [slotCount, AMeta.ident, hf]
    case notAutoRegisterA =>
      rcases hf : acc.notAutoRegister with _ | z <;>
        simp [parseStep, AMeta.ident, requirePathOnly, hf] at h
      subst h
      cases i <;> simp [slotCount, AMeta.ident, hf]
    case otherA s =>
      simp [parseStep, AMeta.ident] at h
  · cases j
    case nameA =>
      rcases hf : acc.name with _ | z <;>
        cases v <;>
        simp [parseStep, AMeta.ident, requireNameValue, nameTryFrom, hf] at h <;>
        (subst h; cases i <;> simp [slotCount, AMeta.ident, hf])
    case eagerCreateA =>
      rcases hf : acc.eagerCreate with _ | z <;>
        simp [parseStep, AMeta.ident, requirePathOnly, hf] at h
    case bindsA =>
      rcases hf : acc.binds with _ | z <;>
        cases v <;>
        simp [parseStep, AMeta.ident, requireNameValue, hf] at h
      rename_i elems
      rcases hb : bindPaths elems with e | ps <;> simp [hb] at h
      subst h
      cases i <;> simp [slotCount, AMeta.ident, hf]
    case asyncConstructorA =>
      rcases hf : acc.asyncConstructor with _ | z <;>
        simp [parseStep, AMeta.ident, requirePathOnly, hf] at h
    case notAutoRegisterA =>
      rcases hf : acc.notAutoRegister with _ | z <;>
        simp [parseStep, AMeta.ident, requirePathOnly, hf] at h
    case otherA s =>
      simp [parseStep, AMeta.ident] at h
  · cases j
    case nameA =>
      rcases hf : acc.name with _ | z <;>
        simp [parseStep, AMeta.ident, requireNameValue, hf] at h
    case eagerCreateA =>
      rcases hf : acc.eagerCreate with _ | z <;>
        simp [parseStep, AMeta.ident, requirePathOnly, hf] at h
    case bindsA =>
      rcases hf : acc.binds with _ | z <;>
        simp [parseStep, AMeta.ident, requireNameValue, hf] at h
    case asyncConstructorA =>
      rcases hf : acc.asyncConstructor with _ | z <;>
        simp [parseStep, AMeta.ident, requirePathOnly, hf] at h
    case notAutoRegisterA =>
      rcases hf : acc.notAutoRegister with _ | z <;>
        simp [parseStep, AMeta.ident, requirePathOnly, hf] at h
    case otherA s =>
      simp [parseStep, AMeta.ident] at h

/-- The parse loop succeeds from a given state exactly when every remaining
argument is well-shaped and no identifier is claimed twice (counting slots
already filled). -/
theorem parseGo_isOk (ms : List AMeta) :
    ∀ acc : ProviderAttribute,
      (parseGo acc ms).isOk = true ↔
        ((∀ m ∈ ms, metaShapeOk m = true) ∧
         ∀ i : AttrIdent, identCount ms i + slotCount acc i ≤ 1) := by
  induction ms with
  | nil =>
    intro acc
    constructor
    · intro _
      refine ⟨by simp, fun i => ?_⟩
      simp [identCount]
      exact slotCount_le_one acc i
    · intro _
      rfl
  | cons m rest ih =>
    intro acc
    have hcount : ∀ i, identCount (m :: rest) i
        = identCount rest i + (if AMeta.ident m = i then 1 else 0) := by
      intro i
      by_cases hmi : AMeta.ident m = i <;>
        simp [identCount, List.countP_cons, hmi, Nat.add_comm]
    simp only [parseGo]
    cases hstep : parseStep acc m with
    | error e =>
      simp only [Except.isOk, Except.toBool]
      constructor
      · intro hfalse
        cases hfalse
      · rintro ⟨hsh, hcnt⟩
        have hm : metaShapeOk m = true := hsh m (List.mem_cons_self m rest)
        have hslot : slotCount acc (AMeta.ident m) = 0 := by
          have := hcnt (AMeta.ident m)
          rw [hcount (AMeta.ident m)] at this
          simp at this
          omega
        have hok : (parseStep acc m).isOk = true :=
          (parseStep_isOk acc m).mpr ⟨hm, hslot⟩
        rw [hstep] at hok
        cases hok
    | ok acc' =>
      rw [ih acc']
      have hm : metaShapeOk m = true := by
        have hok : (parseStep acc m).isOk = true := by rw [hstep]; rfl
        exact ((parseStep_isOk acc m).mp hok).1
      have hslot : slotCount acc (AMeta.ident m) = 0 := by
        have hok : (parseStep acc m).isOk = true := by rw [hstep]; rfl
        exact ((parseStep_isOk acc m).mp hok).2
      have hslots := parseStep_slots acc m acc' hstep
      constructor
      · rintro ⟨hsh, hcnt⟩
        constructor
        · intro m2 hm2
          rcases List.mem_cons.mp hm2 with h2 | h2
          · rw [h2]
            exact hm
          · exact hsh m2 h2
        · intro i
          have h2 := hcnt i
          rw [hslots i] at h2
          rw [hcount i]
          omega
      · rintro ⟨hsh, hcnt⟩
        constructor
        · intro m2 hm2
          exact hsh m2 (List.mem_cons_of_mem m hm2)
        · intro i
          have h2 := hcnt i
          rw [hcount i] at h2
          rw [hslots i]
          omega

/-- **C9**: parsing a provider attribute list fails whenever a recognised
attribute appears more than once, or an unrecognised identifier appears, or
any argument is malformed (in particular a `binds` value that is not an array
of expression paths); it succeeds exactly when every argument is well-shaped
and each identifier appears at most once. -/
theorem parse_attribute_characterization :
    (∀ ms : List AMeta,
        (parseAttr ms).isOk = true ↔
          ((∀ m ∈ ms, metaShapeOk m = true) ∧
           ∀ i : AttrIdent, identCount ms i ≤ 1)) ∧
    (∀ (ms : List AMeta) (i : AttrIdent),
        2 ≤ identCount ms i → (parseAttr ms).isOk = false) ∧
    (∀ (ms : List AMeta) (m : AMeta) (s : String),
        m ∈ ms → AMeta.ident m = .otherA s → (parseAttr ms).isOk = false) ∧
    (∀ (ms : List AMeta) (m : AMeta),
        m ∈ ms → metaShapeOk m = false → (parseAttr ms).isOk = false) := by
  have hchar : ∀ ms : List AMeta,
      (parseAttr ms).isOk = true ↔
        ((∀ m ∈ ms, metaShapeOk m = true) ∧
         ∀ i : AttrIdent, identCount ms i ≤ 1) := by
    intro ms
    rw [show parseAttr ms = parseGo ProviderAttribute.empty ms from rfl,
      parseGo_isOk ms ProviderAttribute.empty]
    have hempty : ∀ i, slotCount ProviderAttribute.empty i = 0 := by
      intro i
      cases i <;> rfl
    constructor
    · rintro ⟨hsh, hcnt⟩
      refine ⟨hsh, fun i => ?_⟩
      have h2 := hcnt i
      rw [hempty i] at h2
      omega
    · rintro ⟨hsh, hcnt⟩
      refine ⟨hsh, fun i => ?_⟩
      rw [hempty i]
      have h2 := hcnt i
      omega
  refine ⟨hchar, ?_, ?_, ?_⟩
  · intro ms i hdup
    cases hok : (parseAttr ms).isOk with
    | false => rfl
    | true =>
      have := ((hchar ms).mp hok).2 i
      omega
  · intro ms m s hmem hident
    cases hok : (parseAttr ms).isOk with
    | false => rfl
    | true =>
      have hm := ((hchar ms).mp hok).1 m hmem
      rcases m with j | ⟨j, v⟩ | j <;> simp [AMeta.ident] at hident <;>
        subst hident <;> simp [metaShapeOk] at hm
  · intro ms m hmem hbad
    cases hok : (parseAttr ms).isOk with
    | false => rfl
    | true =>
      have hm := ((hchar ms).mp hok).1 m hmem
      rw [hbad] at hm
      cases hm

/-- Witness for C9: a duplicated `eager_create` fails, an unknown identifier
fails, a non-array `binds` value fails, and a well-formed list
(`name = "n"`, bare `eager_create`) parses successfully. -/
theorem parse_attribute_characterization_witness :
    (parseAttr [.pathM .eagerCreateA, .pathM .eagerCreateA]).isOk = false ∧
    (parseAttr [.pathM (.otherA "foo")]).isOk = false ∧
    (parseAttr [.nameValue .bindsA (.litStr "x")]).isOk = false ∧
    (parseAttr [.nameValue .nameA (.litStr "n"), .pathM .eagerCreateA]).isOk = true := by
  refine ⟨?_, ?_, ?_, ?_⟩
  · exact parse_attribute_characterization.2.1 _ .eagerCreateA (by decide)
  · exact parse_attribute_characterization.2.2.1 _ (.pathM (.otherA "foo")) "foo"
      (by simp) rfl
  · exact parse_attribute_characterization.2.2.2 _ (.nameValue .bindsA (.litStr "x"))
      (by simp) rfl
  · apply (parse_attribute_characterization.1 _).mpr
    constructor
    · intro m hm
      rcases List.mem_cons.mp hm with h2 | h2
      · rw [h2]
        rfl
      · simp at h2
        rw [h2]
        rfl
    · intro i
      cases i <;> simp [identCount, List.countP_cons, AMeta.ident, List.countP_nil]

end Codegen
